import Mathlib

/-! policyd, the socket policy responder.

A shallow embedding of `src/policyd.c`.  Bytes are natural numbers, C arrays are
lists, the libuv handle of one accepted connection is the record `Client`, and the
callbacks `request_read`, `reply_written` and `new_connection` are functions on it.
-/

namespace Policyd

/-! ## Constants and globals -/

/-- The ASCII text of the request, without any terminator. -/
def request_text : List Nat :=
  [60, 112, 111, 108, 105, 99, 121, 45, 102, 105, 108, 101, 45,
   114, 101, 113, 117, 101, 115, 116, 47, 62]

/-- The array behind `const char *request = "<policy-file-request/>\0"`: the characters
of the literal, the NUL written as `\0` inside it, and the terminating NUL that the
compiler appends to every string literal. -/
def request : List Nat := request_text ++ [0] ++ [0]

/-- The constant `request_len`. -/
def request_len : Nat := 23

/-- The bytes that a complete request consists of: the first `request_len` bytes of
`request`. -/
def expected : List Nat := request.take request_len

/-- The libuv constant `UV_EOF` (its value in `uv-errno.h`). -/
def UV_EOF : Int := -4095

/-- The globals `policy` and `policy_len` once `init` has set them. -/
structure Globals where
  policy : List Nat
  policy_len : Nat
deriving DecidableEq

/-- A `uv_buf_t`: a base pointer (the array it points into) and a length. -/
structure uv_buf_t where
  base : List Nat
  len : Nat
deriving DecidableEq

/-- The function `uv_buf_init`. -/
def uv_buf_init (base : List Nat) (len : Nat) : uv_buf_t := ⟨base, len⟩

/-- The bytes a buffer designates: `len` bytes starting at `base`. -/
def uv_buf_t.bytes (b : uv_buf_t) : List Nat := b.base.take b.len

/-- A line printed by `warn`. -/
inductive Warning where
  | read_error (nread : Int)
  | write_error (status : Int)
  | connection_error (status : Int)
  | accept_error
deriving DecidableEq

/-- One accepted connection, as far as the callbacks can see or change it.
`data` is the context slot `client->data` read as a `size_t`; `closing` records that
`uv_close` has been called on the handle; `writes` lists the buffers handed to
`uv_write`, oldest first; `live_reqs` counts the `uv_write_t` requests allocated and
not yet freed; `bufs_freed` counts the read buffers freed; `warnings` is what `warn`
printed. -/
structure Client where
  data : Nat
  closing : Bool
  writes : List uv_buf_t
  live_reqs : Nat
  bufs_freed : Nat
  warnings : List Warning
deriving DecidableEq

/-- The call `uv_close((uv_handle_t *) client, (uv_close_cb) free)`. -/
def uv_close (client : Client) : Client := { client with closing := true }

/-- The pair `malloc(sizeof(uv_write_t))` and `uv_write(req, client, &wrbuf, 1, reply_written)`. -/
def uv_write (client : Client) (wrbuf : uv_buf_t) : Client :=
  { client with writes := client.writes ++ [wrbuf], live_reqs := client.live_reqs + 1 }

/-- The macro `warn`. -/
def warn (client : Client) (w : Warning) : Client :=
  { client with warnings := client.warnings ++ [w] }

/-- The libc function `memcmp` on the first `n` bytes of two arrays: zero when they
agree, otherwise the sign of the first difference.  An array that ends before `n`
bytes compares as smaller. -/
def memcmp : List Nat → List Nat → Nat → Int
  | _, _, 0 => 0
  | [], [], _ + 1 => 0
  | [], _ :: _, _ + 1 => -1
  | _ :: _, [], _ + 1 => 1
  | a :: as, b :: bs, n + 1 => if a = b then memcmp as bs n else (a : Int) - (b : Int)

/-- The libc function `strlen`: the number of bytes before the first NUL. -/
def strlen : List Nat → Nat
  | [] => 0
  | b :: bs => if b = 0 then 0 else strlen bs + 1

/-! ## Loading the policy -/

/-- What the file system answers to `read_policy`: the size `stat` reports (or failure),
whether `open` succeeds, and the bytes `read` stores for a request of a given count
(or failure). -/
structure FileSys where
  stat : Option Nat
  open_ok : Bool
  read : Nat → Option (List Nat)

/-- The function `read_policy`: `some buffer` for the return value 0, `none` for -1.
The buffer has `size = st_size + 1` bytes (a size that fits the `int` holding it), all
zero after `memset` except for what `read`, asked for `size - 1` bytes, stored at its
start. -/
def read_policy (fs : FileSys) : Option (List Nat) :=
  match fs.stat with
  | none => none
  | some st_size =>
    if fs.open_ok = false then none
    else
      let size := st_size + 1
      let buffer := List.replicate size 0
      match fs.read (size - 1) with
      | none => none
      | some stored => some (stored.take (size - 1) ++ buffer.drop (stored.take (size - 1)).length)

/-- The first statements of `init`: load the policy and set `policy_len`.  The result
is `none` when `init` jumps to `cleanup`. -/
def init (fs : FileSys) : Option Globals :=
  match read_policy fs with
  | none => none
  | some policy => some { policy := policy, policy_len := strlen policy }

/-- A file system holding a readable file with the given content, whose single `read`
returns the whole file. -/
def whole_file (content : List Nat) : FileSys :=
  { stat := some content.length, open_ok := true, read := fun count => some (content.take count) }

/-! ## The callbacks -/

/-- The callback `reply_written`. -/
def reply_written (client : Client) (status : Int) : Client :=
  let client := if status ≠ 0 then warn client (Warning.write_error status) else client
  { client with live_reqs := client.live_reqs - 1 }

/-- The callback `request_read`, called with `nread` and the read buffer `buf` (the
array at `buf->base`).  `sofar + nread` is a `size_t` sum; with `sofar ≤ request_len`
and `nread` an `ssize_t` it cannot wrap (`size_t_sum_exact`), so it is taken in the
natural numbers.  The `||` evaluates `memcmp` only when the length test fails to
reject.  The last step is `free(buf->base)`. -/
def request_read (g : Globals) (client : Client) (nread : Int) (buf : List Nat) : Client :=
  let client :=
    if nread < 0 then
      let client := if nread ≠ UV_EOF then warn client (Warning.read_error nread) else client
      uv_close client
    else if nread > 0 then
      let sofar := client.data
      if sofar + nread.toNat > request_len ∨ memcmp (request.drop sofar) buf nread.toNat ≠ 0 then
        uv_close client
      else
        let client := { client with data := client.data + nread.toNat }
        if client.data = request_len then
          uv_write client (uv_buf_init g.policy g.policy_len)
        else client
    else client
  { client with bufs_freed := client.bufs_freed + 1 }

/-- The handle after `malloc`, `uv_tcp_init` and `client->data = 0` in `new_connection`:
open, nothing written. -/
def fresh : Client :=
  { data := 0, closing := false, writes := [], live_reqs := 0, bufs_freed := 0, warnings := [] }

/-- The callback `new_connection`: what `warn` prints and the client allocated, if any.
With a non-zero `status` it returns before allocating; otherwise the client starts
with `client->data = 0`, and is read from when `uv_accept` succeeds and closed when it
fails. -/
def new_connection (status : Int) (accept_ok : Bool) : List Warning × Option Client :=
  if status ≠ 0 then ([Warning.connection_error status], none)
  else
    let client := fresh
    if accept_ok then ([], some client)
    else ([Warning.accept_error], some (uv_close client))

/-! ## Driving a connection -/

/-- One invocation of the read callback. -/
structure ReadEvent where
  nread : Int
  buf : List Nat
deriving DecidableEq

/-- The event for a chunk of received bytes: `nread` is their number. -/
def chunk (bytes : List Nat) : ReadEvent := ⟨(bytes.length : Int), bytes⟩

/-- The event for end of stream. -/
def eof : ReadEvent := ⟨UV_EOF, []⟩

/-- The bytes an event delivers. -/
def ReadEvent.received (e : ReadEvent) : List Nat := e.buf.take e.nread.toNat

/-- Calls `request_read` for one event. -/
def on_read (g : Globals) (client : Client) (e : ReadEvent) : Client :=
  request_read g client e.nread e.buf

/-- Calls `request_read` for every event in turn, whatever the handle's state. -/
def feed (g : Globals) (client : Client) (events : List ReadEvent) : Client :=
  events.foldl (on_read g) client

/-- The event loop's dispatch: libuv stops reading a handle on `uv_close`, so an event
for a closing handle does not reach `request_read`. -/
def dispatch (g : Globals) (client : Client) (e : ReadEvent) : Client :=
  if client.closing then client else on_read g client e

/-- The event loop delivering a sequence of events to one connection. -/
def serve (g : Globals) (client : Client) (events : List ReadEvent) : Client :=
  events.foldl (dispatch g) client

/-! ## Predicates used in the proofs -/

/-- The test that lets a chunk through when `sofar` bytes have been matched. -/
def accepts (sofar : Nat) (n : Nat) (buf : List Nat) : Prop :=
  sofar + n ≤ request_len ∧ (request.drop sofar).take n = buf.take n

instance accepts_decidable (sofar n : Nat) (buf : List Nat) :
    Decidable (accepts sofar n buf) := by
  unfold accepts; infer_instance

/-- The reply has been written at most once, and only when the count is complete. -/
def write_inv (c : Client) : Prop :=
  c.data ≤ request_len ∧ (c.writes = [] ∨ (c.data = request_len ∧ c.writes.length = 1))

instance write_inv_decidable (c : Client) : Decidable (write_inv c) := by
  unfold write_inv; infer_instance

/-- As long as the handle is open, the count is the number of bytes received and those
bytes are the start of the request. -/
def match_inv (c : Client) (recv : List Nat) : Prop :=
  c.data ≤ request_len ∧
    (c.closing = false → c.data = recv.length ∧ recv = expected.take c.data)

instance match_inv_decidable (c : Client) (recv : List Nat) :
    Decidable (match_inv c recv) := by
  unfold match_inv; infer_instance

/-! ## Basic facts about the model -/

theorem new_connection_fresh : new_connection 0 true = ([], some fresh) := rfl

/-- The `size_t` sum `sofar + nread` in `request_read` is exact: with the count at most
`request_len` and `nread` in the range of `ssize_t`, it stays below `2 ^ 64`. -/
theorem size_t_sum_exact (sofar : Nat) (nread : Int) (h1 : sofar ≤ request_len)
    (h2 : nread < 2 ^ 63) : (sofar + nread.toNat) % 2 ^ 64 = sofar + nread.toNat := by
  unfold request_len at h1
  apply Nat.mod_eq_of_lt
  omega

theorem memcmp_eq_zero_iff (a b : List Nat) (n : Nat) :
    memcmp a b n = 0 ↔ a.take n = b.take n := by
  induction n generalizing a b with
  | zero => simp [memcmp]
  | succ n ih =>
    cases a with
    | nil => cases b <;> simp [memcmp]
    | cons x xs =>
      cases b with
      | nil => simp [memcmp]
      | cons y ys =>
        by_cases h : x = y
        · simp [memcmp, h, ih]
        · have : (x : Int) - (y : Int) ≠ 0 := by omega
          simp [memcmp, h, this]

theorem request_read_neg (g : Globals) (c : Client) (nread : Int) (buf : List Nat)
    (h : nread < 0) :
    (request_read g c nread buf).closing = true ∧
    (request_read g c nread buf).data = c.data ∧
    (request_read g c nread buf).writes = c.writes := by
  unfold request_read
  simp only [h, if_true]
  by_cases e : nread = UV_EOF <;> simp [e, uv_close, warn]

theorem request_read_zero (g : Globals) (c : Client) (buf : List Nat) :
    (request_read g c 0 buf).closing = c.closing ∧
    (request_read g c 0 buf).data = c.data ∧
    (request_read g c 0 buf).writes = c.writes := by
  simp [request_read]

theorem request_read_reject (g : Globals) (c : Client) (nread : Int) (buf : List Nat)
    (h : 0 < nread) (hr : ¬ accepts c.data nread.toNat buf) :
    (request_read g c nread buf).closing = true ∧
    (request_read g c nread buf).data = c.data ∧
    (request_read g c nread buf).writes = c.writes := by
  have h1 : ¬ nread < 0 := by omega
  have hc : c.data + nread.toNat > request_len ∨
      memcmp (request.drop c.data) buf nread.toNat ≠ 0 := by
    by_contra hcon
    push_neg at hcon
    exact hr ⟨hcon.1, (memcmp_eq_zero_iff _ _ _).1 hcon.2⟩
  unfold request_read
  simp only [h1, if_false, gt_iff_lt, h, if_true]
  rw [if_pos hc]
  simp [uv_close]

theorem request_read_accept (g : Globals) (c : Client) (nread : Int) (buf : List Nat)
    (h : 0 < nread) (ha : accepts c.data nread.toNat buf) :
    (request_read g c nread buf).closing = c.closing ∧
    (request_read g c nread buf).data = c.data + nread.toNat ∧
    (request_read g c nread buf).writes =
      c.writes ++ (if c.data + nread.toNat = request_len
        then [uv_buf_init g.policy g.policy_len] else []) := by
  have h1 : ¬ nread < 0 := by omega
  have hc : ¬ (c.data + nread.toNat > request_len ∨
      memcmp (request.drop c.data) buf nread.toNat ≠ 0) := by
    push_neg
    exact ⟨ha.1, (memcmp_eq_zero_iff _ _ _).2 ha.2⟩
  unfold request_read
  simp only [h1, if_false, gt_iff_lt, h, if_true]
  rw [if_neg hc]
  by_cases e : c.data + nread.toNat = request_len <;> simp [e, uv_write]

/-! ## Runs of events -/

theorem feed_nil (g : Globals) (c : Client) : feed g c [] = c := rfl

theorem feed_cons (g : Globals) (c : Client) (e : ReadEvent) (es : List ReadEvent) :
    feed g c (e :: es) = feed g (on_read g c e) es := rfl

theorem feed_append (g : Globals) (c : Client) (es fs : List ReadEvent) :
    feed g c (es ++ fs) = feed g (feed g c es) fs := by
  simp [feed, List.foldl_append]

theorem serve_nil (g : Globals) (c : Client) : serve g c [] = c := rfl

theorem serve_cons (g : Globals) (c : Client) (e : ReadEvent) (es : List ReadEvent) :
    serve g c (e :: es) = serve g (dispatch g c e) es := rfl

theorem serve_append (g : Globals) (c : Client) (es fs : List ReadEvent) :
    serve g c (es ++ fs) = serve g (serve g c es) fs := by
  simp [serve, List.foldl_append]

/-- Every call of `request_read` falls under one of four cases. -/
theorem request_read_cases (g : Globals) (c : Client) (nread : Int) (buf : List Nat) :
    ((request_read g c nread buf).closing = true ∧
      (request_read g c nread buf).data = c.data ∧
      (request_read g c nread buf).writes = c.writes) ∨
    (nread = 0 ∧ (request_read g c nread buf).closing = c.closing ∧
      (request_read g c nread buf).data = c.data ∧
      (request_read g c nread buf).writes = c.writes) ∨
    (0 < nread ∧ accepts c.data nread.toNat buf ∧
      (request_read g c nread buf).closing = c.closing ∧
      (request_read g c nread buf).data = c.data + nread.toNat ∧
      (request_read g c nread buf).writes =
        c.writes ++ (if c.data + nread.toNat = request_len
          then [uv_buf_init g.policy g.policy_len] else [])) := by
  rcases lt_trichotomy nread 0 with h | h | h
  · exact Or.inl (request_read_neg g c nread buf h)
  · subst h
    exact Or.inr (Or.inl ⟨rfl, request_read_zero g c buf⟩)
  · by_cases ha : accepts c.data nread.toNat buf
    · exact Or.inr (Or.inr ⟨h, ha, request_read_accept g c nread buf h ha⟩)
    · exact Or.inl (request_read_reject g c nread buf h ha)

theorem request_read_closing_mono (g : Globals) (c : Client) (nread : Int) (buf : List Nat)
    (h : c.closing = true) : (request_read g c nread buf).closing = true := by
  rcases request_read_cases g c nread buf with h1 | h1 | h1
  · exact h1.1
  · rw [h1.2.1]; exact h
  · rw [h1.2.2.1]; exact h

theorem feed_closing_mono (g : Globals) (es : List ReadEvent) (c : Client)
    (h : c.closing = true) : (feed g c es).closing = true := by
  induction es generalizing c with
  | nil => exact h
  | cons e es ih =>
    rw [feed_cons]
    exact ih _ (request_read_closing_mono g c e.nread e.buf h)

theorem serve_closing (g : Globals) (es : List ReadEvent) (c : Client)
    (h : c.closing = true) : serve g c es = c := by
  induction es with
  | nil => rfl
  | cons e es ih =>
    rw [serve_cons]
    have : dispatch g c e = c := by simp [dispatch, h]
    rw [this]
    exact ih

theorem serve_eq_feed (g : Globals) (es : List ReadEvent) (c : Client)
    (h : (feed g c es).closing = false) : serve g c es = feed g c es := by
  induction es generalizing c with
  | nil => rfl
  | cons e es ih =>
    rw [feed_cons] at h
    have hc : c.closing = false := by
      cases hcl : c.closing with
      | false => rfl
      | true =>
        have h2 := feed_closing_mono g es _ (request_read_closing_mono g c e.nread e.buf hcl)
        rw [on_read] at h
        rw [h] at h2
        exact absurd h2 (by simp)
    rw [serve_cons, feed_cons]
    have : dispatch g c e = on_read g c e := by simp [dispatch, hc]
    rw [this]
    exact ih _ h

/-! ## Chunks -/

theorem on_read_chunk_accept (g : Globals) (c : Client) (x : List Nat) (hx : x ≠ [])
    (hlen : c.data + x.length ≤ request_len)
    (heq : (request.drop c.data).take x.length = x) :
    (on_read g c (chunk x)).closing = c.closing ∧
    (on_read g c (chunk x)).data = c.data + x.length ∧
    (on_read g c (chunk x)).writes =
      c.writes ++ (if c.data + x.length = request_len
        then [uv_buf_init g.policy g.policy_len] else []) := by
  have hpos : (0 : Int) < (x.length : Int) := by
    have := List.length_pos.2 hx
    omega
  have ha : accepts c.data ((x.length : Int)).toNat x := by
    simp only [Int.toNat_ofNat]
    exact ⟨hlen, by rw [heq, List.take_length]⟩
  have := request_read_accept g c (x.length : Int) x hpos ha
  simpa [on_read, chunk] using this

theorem on_read_chunk_reject (g : Globals) (c : Client) (x : List Nat) (hx : x ≠ [])
    (hr : ¬ (c.data + x.length ≤ request_len ∧ (request.drop c.data).take x.length = x)) :
    (on_read g c (chunk x)).closing = true ∧
    (on_read g c (chunk x)).data = c.data ∧
    (on_read g c (chunk x)).writes = c.writes := by
  have hpos : (0 : Int) < (x.length : Int) := by
    have := List.length_pos.2 hx
    omega
  have ha : ¬ accepts c.data ((x.length : Int)).toNat x := by
    simp only [Int.toNat_ofNat]
    intro h
    exact hr ⟨h.1, by rw [h.2, List.take_length]⟩
  have := request_read_reject g c (x.length : Int) x hpos ha
  simpa [on_read, chunk] using this

/-- Chunks that continue the expected request are all let through: the count advances
by their total length, the handle stays as it was, and the reply is written by the
chunk that completes the request. -/
theorem feed_chunks_match (g : Globals) (chunks : List (List Nat)) (c : Client)
    (hne : ∀ x ∈ chunks, x ≠ [])
    (hlen : c.data + chunks.flatten.length ≤ request_len)
    (heq : (request.drop c.data).take chunks.flatten.length = chunks.flatten) :
    (feed g c (chunks.map chunk)).closing = c.closing ∧
    (feed g c (chunks.map chunk)).data = c.data + chunks.flatten.length ∧
    (feed g c (chunks.map chunk)).writes =
      c.writes ++ (if chunks ≠ [] ∧ c.data + chunks.flatten.length = request_len
        then [uv_buf_init g.policy g.policy_len] else []) := by
  induction chunks generalizing c with
  | nil => simp [feed_nil]
  | cons x xs ih =>
    have hx : x ≠ [] := hne x (List.mem_cons_self _ _)
    have hxs : ∀ y ∈ xs, y ≠ [] := fun y hy => hne y (List.mem_cons_of_mem _ hy)
    have hxpos := List.length_pos.2 hx
    simp only [List.flatten_cons, List.length_append] at hlen heq ⊢
    have h1 : (request.drop c.data).take x.length = x := by
      have := congrArg (List.take x.length) heq
      simpa [List.take_take] using this
    have h2 : (request.drop (c.data + x.length)).take xs.flatten.length = xs.flatten := by
      have := congrArg (List.drop x.length) heq
      simpa [List.drop_take, List.drop_drop] using this
    obtain ⟨a1, a2, a3⟩ := on_read_chunk_accept g c x hx (by omega) h1
    have ih' := ih (on_read g c (chunk x)) hxs (by rw [a2]; omega) (by rw [a2]; exact h2)
    obtain ⟨b1, b2, b3⟩ := ih'
    rw [List.map_cons, feed_cons]
    refine ⟨by rw [b1, a1], by rw [b2, a2]; omega, ?_⟩
    rw [b3, a3, a2]
    by_cases hxs0 : xs = []
    · subst hxs0
      simp
    · have hpos : 0 < xs.flatten.length := by
        obtain ⟨y, ys, rfl⟩ := List.exists_cons_of_ne_nil hxs0
        have := List.length_pos.2 (hxs y (List.mem_cons_self _ _))
        simp only [List.flatten_cons, List.length_append]
        omega
      have hlt : ¬ (c.data + x.length = request_len) := by omega
      simp [hlt, hxs0, Nat.add_assoc]

theorem flatten_length_pos (chunks : List (List Nat)) (hne : ∀ x ∈ chunks, x ≠ [])
    (h : chunks ≠ []) : 0 < chunks.flatten.length := by
  obtain ⟨y, ys, rfl⟩ := List.exists_cons_of_ne_nil h
  have := List.length_pos.2 (hne y (List.mem_cons_self _ _))
  simp only [List.flatten_cons, List.length_append]
  omega

theorem request_length : request.length = 24 := by decide

theorem expected_length : expected.length = 23 := by decide

theorem expected_take (n : Nat) (h : n ≤ request_len) : expected.take n = request.take n := by
  unfold expected
  rw [List.take_take, Nat.min_eq_left h]

/-- Chunks whose concatenation starts the expected request are let through from a
fresh handle. -/
theorem feed_fresh_match (g : Globals) (chunks : List (List Nat)) (rest : List Nat)
    (hne : ∀ x ∈ chunks, x ≠ []) (h : chunks.flatten ++ rest = expected) :
    (feed g fresh (chunks.map chunk)).closing = false ∧
    (feed g fresh (chunks.map chunk)).data = chunks.flatten.length ∧
    (feed g fresh (chunks.map chunk)).writes =
      (if chunks ≠ [] ∧ chunks.flatten.length = request_len
        then [uv_buf_init g.policy g.policy_len] else []) := by
  have hl : chunks.flatten.length + rest.length = 23 := by
    rw [← List.length_append, h, expected_length]
  have hlen : chunks.flatten.length ≤ request_len := by unfold request_len; omega
  have heq : (request.drop fresh.data).take chunks.flatten.length = chunks.flatten := by
    have h1 : expected.take chunks.flatten.length = chunks.flatten := by
      rw [← h, List.take_left' rfl]
    rw [expected_take _ hlen] at h1
    simpa [fresh] using h1
  have := feed_chunks_match g chunks fresh hne (by simpa [fresh] using hlen) heq
  simpa [fresh] using this

/-! ## Invariants of a connection -/

theorem write_inv_request_read (g : Globals) (c : Client) (nread : Int) (buf : List Nat)
    (h : write_inv c) : write_inv (request_read g c nread buf) := by
  unfold write_inv at h ⊢
  rcases request_read_cases g c nread buf with h1 | h1 | h1
  · rw [h1.2.1, h1.2.2]; exact h
  · rw [h1.2.2.1, h1.2.2.2]; exact h
  · obtain ⟨hpos, hacc, -, hd, hw⟩ := h1
    have hn : 0 < nread.toNat := by omega
    have hle := hacc.1
    have hw0 : c.writes = [] := by
      rcases h.2 with h2 | h2
      · exact h2
      · omega
    rw [hd, hw, hw0]
    refine ⟨hle, ?_⟩
    by_cases e : c.data + nread.toNat = request_len
    · right; simp [e]
    · left; simp [e]

theorem write_inv_feed (g : Globals) (es : List ReadEvent) (c : Client)
    (h : write_inv c) : write_inv (feed g c es) := by
  induction es generalizing c with
  | nil => exact h
  | cons e es ih => exact ih _ (write_inv_request_read g c e.nread e.buf h)

theorem write_inv_serve (g : Globals) (es : List ReadEvent) (c : Client)
    (h : write_inv c) : write_inv (serve g c es) := by
  induction es generalizing c with
  | nil => exact h
  | cons e es ih =>
    rw [serve_cons]
    apply ih
    unfold dispatch
    split
    · exact h
    · exact write_inv_request_read g c e.nread e.buf h

theorem match_inv_on_read (g : Globals) (c : Client) (e : ReadEvent) (recv : List Nat)
    (h : match_inv c recv) : match_inv (on_read g c e) (recv ++ e.received) := by
  unfold match_inv at h ⊢
  unfold on_read
  rcases request_read_cases g c e.nread e.buf with h1 | h1 | h1
  · rw [h1.2.1, h1.1]
    exact ⟨h.1, fun hc => absurd hc (by simp)⟩
  · rw [h1.2.2.1, h1.2.1]
    have : e.received = [] := by simp [ReadEvent.received, h1.1]
    rw [this, List.append_nil]
    exact h
  · obtain ⟨-, hacc, hc, hd, -⟩ := h1
    rw [hd, hc]
    refine ⟨hacc.1, fun hopen => ?_⟩
    obtain ⟨hlen, hrecv⟩ := h.2 hopen
    have hr : e.received = (request.drop c.data).take e.nread.toNat := hacc.2.symm
    have hle := hacc.1
    have hrl : e.received.length = e.nread.toNat := by
      rw [hr, List.length_take, List.length_drop, request_length]
      unfold request_len at hle
      omega
    refine ⟨by rw [List.length_append, hrl, ← hlen], ?_⟩
    rw [expected_take _ hle, List.take_add, hr, ← expected_take _ h.1, ← hrecv]

theorem match_inv_feed (g : Globals) (es : List ReadEvent) (c : Client) (recv : List Nat)
    (h : match_inv c recv) :
    match_inv (feed g c es) (recv ++ (es.map ReadEvent.received).flatten) := by
  induction es generalizing c recv with
  | nil => simpa [feed_nil] using h
  | cons e es ih =>
    have := ih _ _ (match_inv_on_read g c e recv h)
    simpa [feed_cons, List.append_assoc] using this

/-! ## Streams that do not match -/

theorem seg_add (d a b : Nat) :
    (request.drop d).take (a + b) =
      (request.drop d).take a ++ (request.drop (d + a)).take b := by
  rw [List.take_add, List.drop_drop]

theorem seg_length (d n : Nat) (h : d + n ≤ request_len) :
    ((request.drop d).take n).length = n := by
  rw [List.length_take, List.length_drop, request_length]
  unfold request_len at h
  omega

/-- A chunk boundary at the end of the request lies after the first chunk: that chunk
is let through and the boundary is one of the remaining chunks'. -/
theorem boundary_cons (d : Nat) (x : List Nat) (xs : List (List Nat)) (hd : d < request_len)
    (h : ∃ pre post, x :: xs = pre ++ post ∧
      pre.flatten = (request.drop d).take (request_len - d)) :
    d + x.length ≤ request_len ∧ (request.drop d).take x.length = x ∧
    ∃ pre post, xs = pre ++ post ∧
      pre.flatten = (request.drop (d + x.length)).take (request_len - (d + x.length)) := by
  obtain ⟨pre, post, hsplit, hflat⟩ := h
  have hlen := congrArg List.length hflat
  rw [seg_length d _ (by omega)] at hlen
  cases pre with
  | nil =>
    simp only [List.flatten_nil, List.length_nil] at hlen
    omega
  | cons y pre' =>
    simp only [List.cons_append, List.cons.injEq] at hsplit
    obtain ⟨rfl, hxs⟩ := hsplit
    simp only [List.flatten_cons, List.length_append] at hlen hflat
    have hle : d + x.length ≤ request_len := by omega
    have hsum : request_len - d = x.length + (request_len - (d + x.length)) := by omega
    have hx : (request.drop d).take x.length = x := by
      have := congrArg (List.take x.length) hflat
      rw [List.take_left' rfl, List.take_take, Nat.min_eq_left (by omega)] at this
      exact this.symm
    refine ⟨hle, hx, pre', post, hxs, ?_⟩
    rw [hsum, seg_add, hx] at hflat
    exact List.append_cancel_left hflat

theorem boundary_cons_conv (d : Nat) (x : List Nat) (xs : List (List Nat))
    (hle : d + x.length ≤ request_len) (hx : (request.drop d).take x.length = x)
    (h : ∃ pre post, xs = pre ++ post ∧
      pre.flatten = (request.drop (d + x.length)).take (request_len - (d + x.length))) :
    ∃ pre post, x :: xs = pre ++ post ∧
      pre.flatten = (request.drop d).take (request_len - d) := by
  obtain ⟨pre, post, hsplit, hflat⟩ := h
  refine ⟨x :: pre, post, by rw [hsplit, List.cons_append], ?_⟩
  have hsum : request_len - d = x.length + (request_len - (d + x.length)) := by omega
  rw [List.flatten_cons, hsum, seg_add, hx, hflat]

/-- A stream that runs past the end of the request closes the handle.  The reply is
written on the way exactly when the rest of the request arrives first and ends at a
chunk boundary. -/
theorem serve_overlong (g : Globals) (chunks : List (List Nat)) (c : Client)
    (hopen : c.closing = false) (hd : c.data ≤ request_len)
    (hne : ∀ x ∈ chunks, x ≠ [])
    (hlong : request_len < c.data + chunks.flatten.length) :
    (serve g c (chunks.map chunk)).closing = true ∧
    ((c.data < request_len ∧ ∃ pre post, chunks = pre ++ post ∧
        pre.flatten = (request.drop c.data).take (request_len - c.data)) →
      (serve g c (chunks.map chunk)).writes =
        c.writes ++ [uv_buf_init g.policy g.policy_len]) ∧
    (¬ (c.data < request_len ∧ ∃ pre post, chunks = pre ++ post ∧
        pre.flatten = (request.drop c.data).take (request_len - c.data)) →
      (serve g c (chunks.map chunk)).writes = c.writes) := by
  induction chunks generalizing c with
  | nil =>
    simp only [List.flatten_nil, List.length_nil] at hlong
    omega
  | cons x xs ih =>
    have hx : x ≠ [] := hne x (List.mem_cons_self _ _)
    have hxs : ∀ y ∈ xs, y ≠ [] := fun y hy => hne y (List.mem_cons_of_mem _ hy)
    have hxpos := List.length_pos.2 hx
    simp only [List.flatten_cons, List.length_append] at hlong
    have hstep : dispatch g c (chunk x) = on_read g c (chunk x) := by
      simp [dispatch, hopen]
    rw [List.map_cons, serve_cons, hstep]
    by_cases hacc : c.data + x.length ≤ request_len ∧ (request.drop c.data).take x.length = x
    · obtain ⟨a1, a2, a3⟩ := on_read_chunk_accept g c x hx hacc.1 hacc.2
      have hlt : c.data < request_len := by omega
      obtain ⟨i1, i2, i3⟩ := ih (on_read g c (chunk x)) (by rw [a1, hopen])
        (by rw [a2]; exact hacc.1) hxs (by rw [a2]; omega)
      rw [a2] at i2 i3
      rw [a3] at i2 i3
      refine ⟨i1, ?_, ?_⟩
      · intro hb
        obtain ⟨-, -, hb'⟩ := boundary_cons c.data x xs hlt hb.2
        by_cases hfull : c.data + x.length = request_len
        · rw [i3 (by omega), if_pos hfull]
        · rw [i2 ⟨by omega, hb'⟩, if_neg hfull, List.append_nil]
      · intro hnb
        by_cases hfull : c.data + x.length = request_len
        · exfalso
          apply hnb
          refine ⟨hlt, boundary_cons_conv c.data x xs hacc.1 hacc.2 ⟨[], xs, rfl, ?_⟩⟩
          rw [hfull, Nat.sub_self, List.take_zero, List.flatten_nil]
        · rw [i3 ?_, if_neg hfull, List.append_nil]
          intro hb
          exact hnb ⟨hlt, boundary_cons_conv c.data x xs hacc.1 hacc.2 hb.2⟩
    · obtain ⟨a1, -, a3⟩ := on_read_chunk_reject g c x hx hacc
      rw [serve_closing g _ _ a1]
      refine ⟨a1, ?_, fun _ => a3⟩
      intro hb
      obtain ⟨h1, h2, -⟩ := boundary_cons c.data x xs hb.1 hb.2
      exact absurd ⟨h1, h2⟩ hacc

/-- A chunk holding a byte that differs from the request, after chunks that matched,
is rejected: the handle closes and nothing has been written. -/
theorem serve_mismatch (g : Globals) (pre : List (List Nat)) (c : List Nat) (tl : List Nat)
    (p : Nat) (hne : ∀ x ∈ pre, x ≠ []) (hc : c ≠ []) (hp : p < request_len)
    (hlo : pre.flatten.length ≤ p) (hhi : p < pre.flatten.length + c.length)
    (hsame : (pre.flatten ++ (c ++ tl)).take p = expected.take p)
    (hdiff : (pre.flatten ++ (c ++ tl))[p]? ≠ expected[p]?) :
    (serve g fresh ((pre ++ [c]).map chunk)).closing = true ∧
    (serve g fresh ((pre ++ [c]).map chunk)).writes = [] := by
  have hpre : pre.flatten = expected.take pre.flatten.length := by
    have := congrArg (List.take pre.flatten.length) hsame
    rw [List.take_take, List.take_take, Nat.min_eq_left hlo, List.take_left' rfl] at this
    exact this
  have hjoin : pre.flatten ++ expected.drop pre.flatten.length = expected := by
    conv_lhs => rw [hpre]
    rw [List.length_take, expected_length, Nat.min_eq_left (by unfold request_len at hp; omega)]
    exact List.take_append_drop _ _
  obtain ⟨a1, a2, a3⟩ := feed_fresh_match g pre _ hne hjoin
  have hshort : ¬ (pre.flatten.length = request_len) := by omega
  rw [if_neg (fun h => hshort h.2)] at a3
  have hs : serve g fresh (pre.map chunk) = feed g fresh (pre.map chunk) :=
    serve_eq_feed g _ _ a1
  have hrej : ¬ ((feed g fresh (pre.map chunk)).data + c.length ≤ request_len ∧
      (request.drop (feed g fresh (pre.map chunk)).data).take c.length = c) := by
    rw [a2]
    rintro ⟨-, hseg⟩
    apply hdiff
    have hpc : p - pre.flatten.length < c.length := by omega
    have hcp : List.get? c (p - pre.flatten.length) = request[p]? := by
      rw [List.get?_eq_getElem?]
      conv_lhs => rw [← hseg]
      rw [List.getElem?_take_of_lt hpc, List.getElem?_drop]
      congr 1
      omega
    rw [List.get?_eq_getElem?] at hcp
    rw [List.getElem?_append_right hlo, List.getElem?_append_left hpc, hcp]
    unfold expected
    rw [List.getElem?_take_of_lt hp]
  obtain ⟨b1, -, b3⟩ := on_read_chunk_reject g _ c hc hrej
  have hstep : serve g fresh ((pre ++ [c]).map chunk) =
      on_read g (feed g fresh (pre.map chunk)) (chunk c) := by
    rw [List.map_append, serve_append, hs, List.map_cons, List.map_nil, serve_cons, serve_nil]
    simp [dispatch, a1]
  rw [hstep]
  exact ⟨b1, by rw [b3, a3]⟩

/-! ## Loading -/

theorem strlen_append_nul (content : List Nat) :
    strlen (content ++ [0]) = (content.takeWhile (fun b => b ≠ 0)).length := by
  induction content with
  | nil => simp [strlen]
  | cons b bs ih =>
    by_cases hb : b = 0
    · simp [strlen, hb, List.takeWhile]
    · simp [strlen, hb, List.takeWhile, ih]

theorem read_policy_whole_file (content : List Nat) :
    read_policy (whole_file content) = some (content ++ [0]) := by
  have h : List.drop content.length (List.replicate (content.length + 1) 0) = [0] := by
    rw [List.drop_replicate]
    simp
  simp [read_policy, whole_file, h]

/-- What `init` records for a file read whole: the buffer is the content and a NUL, and
`policy_len` counts the bytes before the first NUL of the content. -/
theorem init_whole_file (content : List Nat) :
    init (whole_file content) =
      some { policy := content ++ [0],
             policy_len := (content.takeWhile (fun b => b ≠ 0)).length } := by
  simp [init, read_policy_whole_file, strlen_append_nul]

/-- For a file without NUL bytes `policy_len` is the size of the file. -/
theorem init_whole_file_text (content : List Nat) (h : ∀ b ∈ content, b ≠ 0) :
    init (whole_file content) =
      some { policy := content ++ [0], policy_len := content.length } := by
  rw [init_whole_file]
  have : content.takeWhile (fun b => b ≠ 0) = content := by
    rw [List.takeWhile_eq_self_iff]
    intro b hb
    simpa using h b hb
  rw [this]

/-- The request arriving whole in the leading chunks `pre`, followed by one more chunk
`nxt`: nothing is written and the handle is open before the last chunk of `pre`; that
chunk writes the reply and leaves the handle open; `nxt` closes the handle and writes
nothing more. -/
theorem serve_request_then_more (g : Globals) (pre : List (List Nat)) (nxt : List Nat)
    (hne : ∀ x ∈ pre, x ≠ []) (hnxt : nxt ≠ []) (hfull : pre.flatten = expected) :
    (serve g fresh (pre.dropLast.map chunk)).writes = [] ∧
    (serve g fresh (pre.dropLast.map chunk)).closing = false ∧
    (serve g fresh (pre.map chunk)).writes = [uv_buf_init g.policy g.policy_len] ∧
    (serve g fresh (pre.map chunk)).closing = false ∧
    (serve g fresh ((pre ++ [nxt]).map chunk)).writes = [uv_buf_init g.policy g.policy_len] ∧
    (serve g fresh ((pre ++ [nxt]).map chunk)).closing = true := by
  have hp0 : pre ≠ [] := by
    intro h
    rw [h] at hfull
    exact absurd hfull (by decide)
  have hlen : pre.flatten.length = request_len := by rw [hfull]; decide
  obtain ⟨a1, a2, a3⟩ := feed_fresh_match g pre [] hne (by simpa using hfull)
  rw [if_pos ⟨hp0, hlen⟩] at a3
  have hdl : pre.dropLast ++ [pre.getLast hp0] = pre := List.dropLast_append_getLast hp0
  have hlast : pre.getLast hp0 ≠ [] := hne _ (List.getLast_mem hp0)
  have hne' : ∀ x ∈ pre.dropLast, x ≠ [] :=
    fun x hx => hne x (List.dropLast_subset pre hx)
  have hsplit' : pre.dropLast.flatten ++ pre.getLast hp0 = expected := by
    rw [← hfull]
    conv_rhs => rw [← hdl]
    simp
  obtain ⟨b1, -, b3⟩ := feed_fresh_match g pre.dropLast _ hne' hsplit'
  have hshort : ¬ (pre.dropLast.flatten.length = request_len) := by
    have h1 := congrArg List.length hsplit'
    rw [List.length_append, expected_length] at h1
    have h2 := List.length_pos.2 hlast
    unfold request_len
    omega
  rw [if_neg (fun h => hshort h.2)] at b3
  have hs : serve g fresh (pre.map chunk) = feed g fresh (pre.map chunk) :=
    serve_eq_feed g _ _ a1
  have hs' : serve g fresh (pre.dropLast.map chunk) = feed g fresh (pre.dropLast.map chunk) :=
    serve_eq_feed g _ _ b1
  have hrej : ¬ ((feed g fresh (pre.map chunk)).data + nxt.length ≤ request_len ∧
      (request.drop (feed g fresh (pre.map chunk)).data).take nxt.length = nxt) := by
    rw [a2, hlen]
    rintro ⟨hle, -⟩
    have := List.length_pos.2 hnxt
    omega
  obtain ⟨c1, -, c3⟩ := on_read_chunk_reject g _ nxt hnxt hrej
  have hstep : serve g fresh ((pre ++ [nxt]).map chunk) =
      on_read g (feed g fresh (pre.map chunk)) (chunk nxt) := by
    rw [List.map_append, serve_append, hs, List.map_cons, List.map_nil, serve_cons, serve_nil]
    simp [dispatch, a1]
  refine ⟨by rw [hs', b3], by rw [hs', b1], by rw [hs, a3], by rw [hs, a1], ?_, ?_⟩
  · rw [hstep, c3, a3]
  · rw [hstep, c1]

/-! ## The claims -/

/-- C1: for every split of the expected request (the 22 characters of the request text
and one NUL, 23 bytes) into non-empty chunks, feeding the chunks to `request_read` on a
fresh connection leaves exactly one `uv_write`, whose buffer is `(policy, policy_len)`;
no write has been issued before the last chunk, no chunk is rejected (the handle is not
closed), and the count ends at `request_len`.  The result does not depend on the split
or on the policy, which may be empty. -/
theorem request_split_replies_once (g : Globals) (chunks : List (List Nat))
    (hne : ∀ x ∈ chunks, x ≠ []) (hsplit : chunks.flatten = expected) :
    (feed g fresh (chunks.map chunk)).writes = [uv_buf_init g.policy g.policy_len] ∧
    (feed g fresh (chunks.map chunk)).closing = false ∧
    (feed g fresh (chunks.map chunk)).data = request_len ∧
    (feed g fresh (chunks.dropLast.map chunk)).writes = [] ∧
    (feed g fresh (chunks.dropLast.map chunk)).closing = false := by
  have hc0 : chunks ≠ [] := by
    intro h
    rw [h] at hsplit
    exact absurd hsplit (by decide)
  have hlen : chunks.flatten.length = request_len := by rw [hsplit]; decide
  obtain ⟨a1, a2, a3⟩ := feed_fresh_match g chunks [] hne (by simpa using hsplit)
  have hdl : chunks.dropLast ++ [chunks.getLast hc0] = chunks :=
    List.dropLast_append_getLast hc0
  have hlast : chunks.getLast hc0 ≠ [] := hne _ (List.getLast_mem hc0)
  have hne' : ∀ x ∈ chunks.dropLast, x ≠ [] :=
    fun x hx => hne x (List.dropLast_subset chunks hx)
  have hsplit' : chunks.dropLast.flatten ++ chunks.getLast hc0 = expected := by
    rw [← hsplit]
    conv_rhs => rw [← hdl]
    simp
  obtain ⟨b1, -, b3⟩ := feed_fresh_match g chunks.dropLast _ hne' hsplit'
  have hshort : ¬ (chunks.dropLast.flatten.length = request_len) := by
    have h1 := congrArg List.length hsplit'
    rw [List.length_append, expected_length] at h1
    have h2 := List.length_pos.2 hlast
    unfold request_len
    omega
  refine ⟨?_, a1, by rw [a2, hlen], ?_, b1⟩
  · rw [a3, if_pos ⟨hc0, hlen⟩]
  · rw [b3, if_neg (fun h => hshort h.2)]

/-- The request of C1 sent as `<policy-file-r` and `equest/>` with the NUL, answered
with a three-byte policy. -/
theorem request_split_replies_once_witness :
    (∀ x ∈ [[60, 112, 111, 108, 105, 99, 121, 45, 102, 105, 108, 101, 45, 114],
        [101, 113, 117, 101, 115, 116, 47, 62, 0]], x ≠ []) ∧
    [[60, 112, 111, 108, 105, 99, 121, 45, 102, 105, 108, 101, 45, 114],
      [101, 113, 117, 101, 115, 116, 47, 62, 0]].flatten = expected ∧
    (feed ⟨[60, 47, 62], 3⟩ fresh
      ([[60, 112, 111, 108, 105, 99, 121, 45, 102, 105, 108, 101, 45, 114],
        [101, 113, 117, 101, 115, 116, 47, 62, 0]].map chunk)).writes
      = [uv_buf_init [60, 47, 62] 3] :=
  ⟨by decide, by decide,
    (request_split_replies_once ⟨[60, 47, 62], 3⟩
      [[60, 112, 111, 108, 105, 99, 121, 45, 102, 105, 108, 101, 45, 114],
        [101, 113, 117, 101, 115, 116, 47, 62, 0]] (by decide) (by decide)).1⟩

/-- C2: whatever read events reach `request_read` on a connection that started with
`data = 0` (chunks of any content and length, empty reads, end of stream, errors, in any
order, even events after `uv_close`), at most one `uv_write` is issued; the same holds
when the event loop withholds events from a closing handle. -/
theorem at_most_one_reply (g : Globals) (events : List ReadEvent) :
    (feed g fresh events).writes.length ≤ 1 ∧ (serve g fresh events).writes.length ≤ 1 := by
  have h0 : write_inv fresh := by
    unfold write_inv fresh request_len
    simp
  have key : ∀ c : Client, write_inv c → c.writes.length ≤ 1 := by
    intro c hc
    rcases hc.2 with h | h
    · rw [h]; simp
    · omega
  exact ⟨key _ (write_inv_feed g events fresh h0), key _ (write_inv_serve g events fresh h0)⟩

/-- C5: when the chunks received are a split of a proper prefix of the expected request
(possibly the empty one), no reply is written and the handle stays open after any
number `pre` of the chunks and after all of them, and the end-of-stream event that
follows closes the handle, again without a write. -/
theorem partial_request_then_eof (g : Globals) (pre suf : List (List Nat))
    (hne : ∀ x ∈ pre ++ suf, x ≠ [])
    (hstart : (pre ++ suf).flatten <+: expected)
    (hproper : (pre ++ suf).flatten ≠ expected) :
    (feed g fresh (pre.map chunk)).writes = [] ∧
    (feed g fresh (pre.map chunk)).closing = false ∧
    (feed g fresh ((pre ++ suf).map chunk)).writes = [] ∧
    (feed g fresh ((pre ++ suf).map chunk)).closing = false ∧
    (feed g fresh ((pre ++ suf).map chunk ++ [eof])).writes = [] ∧
    (feed g fresh ((pre ++ suf).map chunk ++ [eof])).closing = true := by
  obtain ⟨rest, hrest⟩ := hstart
  have hrest0 : rest ≠ [] := by
    intro h
    rw [h, List.append_nil] at hrest
    exact hproper hrest
  have hl := congrArg List.length hrest
  rw [List.length_append, expected_length] at hl
  have hrl := List.length_pos.2 hrest0
  have hshort : ¬ ((pre ++ suf).flatten.length = request_len) := by
    unfold request_len; omega
  obtain ⟨a1, -, a3⟩ := feed_fresh_match g (pre ++ suf) rest hne hrest
  have hpre : pre.flatten ++ (suf.flatten ++ rest) = expected := by
    rw [← hrest]; simp
  have hshort' : ¬ (pre.flatten.length = request_len) := by
    have : (pre ++ suf).flatten.length = pre.flatten.length + suf.flatten.length := by simp
    unfold request_len; omega
  obtain ⟨b1, -, b3⟩ := feed_fresh_match g pre _
    (fun x hx => hne x (List.mem_append_left _ hx)) hpre
  have hw : (feed g fresh ((pre ++ suf).map chunk)).writes = [] := by
    rw [a3, if_neg (fun h => hshort h.2)]
  have heof := request_read_neg g (feed g fresh ((pre ++ suf).map chunk)) UV_EOF [] (by decide)
  refine ⟨by rw [b3, if_neg (fun h => hshort' h.2)], b1, hw, a1, ?_, ?_⟩
  · rw [feed_append, feed_cons, feed_nil, on_read]
    show (request_read g _ UV_EOF []).writes = []
    rw [heof.2.2, hw]
  · rw [feed_append, feed_cons, feed_nil, on_read]
    exact heof.1

/-- The client of C5 sends `<policy` in two chunks and disconnects. -/
theorem partial_request_then_eof_witness :
    (∀ x ∈ [[60, 112]] ++ [[111, 108, 105, 99, 121]], x ≠ []) ∧
    ([[60, 112]] ++ [[111, 108, 105, 99, 121]]).flatten <+: expected ∧
    ([[60, 112]] ++ [[111, 108, 105, 99, 121]]).flatten ≠ expected ∧
    (feed ⟨[60, 47, 62], 3⟩ fresh
      (([[60, 112]] ++ [[111, 108, 105, 99, 121]]).map chunk ++ [eof])).closing = true :=
  ⟨by decide, by decide, by decide,
    (partial_request_then_eof ⟨[60, 47, 62], 3⟩ [[60, 112]] [[111, 108, 105, 99, 121]]
      (by decide) (by decide) (by decide)).2.2.2.2.2⟩

/-- C10: after any sequence of `request_read` calls on a connection that started with
`data = 0`, the count satisfies `0 ≤ data ≤ 23`; and while `uv_close` has not been
called, `data` is the number of bytes received so far and the bytes received so far are
the first `data` bytes of the expected request. -/
theorem matched_count_invariant (g : Globals) (events : List ReadEvent) :
    0 ≤ (feed g fresh events).data ∧ (feed g fresh events).data ≤ 23 ∧
    ((feed g fresh events).closing = false →
      (feed g fresh events).data = (events.map ReadEvent.received).flatten.length ∧
      (events.map ReadEvent.received).flatten = expected.take (feed g fresh events).data) := by
  have h0 : match_inv fresh [] := by
    unfold match_inv fresh
    simp
  have h := match_inv_feed g events fresh [] h0
  rw [List.nil_append] at h
  exact ⟨Nat.zero_le _, h.1, h.2⟩

/-- C3: let a stream agree with the expected request on its first `p` bytes and differ
from it at byte `p < 23`, and let it arrive in non-empty chunks `pre ++ c :: post`, where
`c` is the chunk that holds byte `p`.  Then the handle is closed once `c` has been
processed, and no reply has been written at that point or at the end of the stream.
Events for a closing handle are withheld by the event loop. -/
theorem mismatch_closes_without_reply (g : Globals) (pre post : List (List Nat))
    (c : List Nat) (p : Nat)
    (hne : ∀ x ∈ pre ++ c :: post, x ≠ [])
    (hp : p < request_len)
    (hlo : pre.flatten.length ≤ p) (hhi : p < pre.flatten.length + c.length)
    (hsame : (pre ++ c :: post).flatten.take p = expected.take p)
    (hdiff : (pre ++ c :: post).flatten[p]? ≠ expected[p]?) :
    (serve g fresh ((pre ++ [c]).map chunk)).closing = true ∧
    (serve g fresh ((pre ++ [c]).map chunk)).writes = [] ∧
    (serve g fresh ((pre ++ c :: post).map chunk)).closing = true ∧
    (serve g fresh ((pre ++ c :: post).map chunk)).writes = [] := by
  have hflat : (pre ++ c :: post).flatten = pre.flatten ++ (c ++ post.flatten) := by simp
  rw [hflat] at hsame hdiff
  obtain ⟨h1, h2⟩ := serve_mismatch g pre c post.flatten p
    (fun x hx => hne x (List.mem_append_left _ hx))
    (hne c (List.mem_append_right _ (List.mem_cons_self _ _))) hp hlo hhi hsame hdiff
  have hall : serve g fresh ((pre ++ c :: post).map chunk) =
      serve g fresh ((pre ++ [c]).map chunk) := by
    have : pre ++ c :: post = (pre ++ [c]) ++ post := by simp
    rw [this, List.map_append, serve_append, serve_closing g _ _ h1]
  rw [hall]
  exact ⟨h1, h2, h1, h2⟩

/-- The client of C3 sends `<p`, then `oXicy`, then `-file`: the stream differs from the
request at byte 3, inside the second chunk. -/
theorem mismatch_closes_without_reply_witness :
    (∀ x ∈ [[60, 112]] ++ [111, 88, 105, 99, 121] :: [[45, 102, 105, 108, 101]], x ≠ []) ∧
    3 < request_len ∧
    ([[60, 112]] : List (List Nat)).flatten.length ≤ 3 ∧
    3 < ([[60, 112]] : List (List Nat)).flatten.length + [111, 88, 105, 99, 121].length ∧
    ([[60, 112]] ++ [111, 88, 105, 99, 121] :: [[45, 102, 105, 108, 101]]).flatten.take 3
      = expected.take 3 ∧
    ([[60, 112]] ++ [111, 88, 105, 99, 121] :: [[45, 102, 105, 108, 101]]).flatten[3]?
      ≠ expected[3]? ∧
    (serve ⟨[60, 47, 62], 3⟩ fresh
      (([[60, 112]] ++ [[111, 88, 105, 99, 121]]).map chunk)).closing = true :=
  ⟨by decide, by decide, by decide, by decide, by decide, by decide,
    (mismatch_closes_without_reply ⟨[60, 47, 62], 3⟩ [[60, 112]] [[45, 102, 105, 108, 101]]
      [111, 88, 105, 99, 121] 3 (by decide) (by decide) (by decide) (by decide) (by decide)
      (by decide)).1⟩

/-- C4, the claim as stated fails: the 24-byte stream made of the expected request and
one more byte `x`, received as a 23-byte chunk and a 1-byte chunk, is longer than the
request, yet the first chunk completes the request and the reply is written before the
second chunk closes the handle. -/
theorem overlong_reply_counterexample :
    (∀ x ∈ [[60, 112, 111, 108, 105, 99, 121, 45, 102, 105, 108, 101, 45,
        114, 101, 113, 117, 101, 115, 116, 47, 62, 0], [120]], x ≠ []) ∧
    request_len < [[60, 112, 111, 108, 105, 99, 121, 45, 102, 105, 108, 101, 45,
        114, 101, 113, 117, 101, 115, 116, 47, 62, 0], [120]].flatten.length ∧
    (serve ⟨[60, 47, 62], 3⟩ fresh
      ([[60, 112, 111, 108, 105, 99, 121, 45, 102, 105, 108, 101, 45,
        114, 101, 113, 117, 101, 115, 116, 47, 62, 0], [120]].map chunk)).writes
      = [uv_buf_init [60, 47, 62] 3] ∧
    (serve ⟨[60, 47, 62], 3⟩ fresh
      ([[60, 112, 111, 108, 105, 99, 121, 45, 102, 105, 108, 101, 45,
        114, 101, 113, 117, 101, 115, 116, 47, 62, 0], [120]].map chunk)).closing = true := by
  decide

/-- C4, amended: a stream longer than the expected request, received in non-empty
chunks, always ends with the handle closed.  No reply is written, unless some of the
leading chunks together are exactly the expected request; in that case the reply is
written once, by the chunk that completes the request and before the next chunk closes
the handle: for every such split `pre ++ nxt :: post` of the chunks nothing is written
and the handle is open before the last chunk of `pre`, after `pre` the reply is written
and the handle still open, and after `nxt` the handle is closing with that one write. -/
theorem overlong_stream_closes (g : Globals) (chunks : List (List Nat))
    (hne : ∀ x ∈ chunks, x ≠ []) (hlong : request_len < chunks.flatten.length) :
    (serve g fresh (chunks.map chunk)).closing = true ∧
    ((¬ ∃ pre post, chunks = pre ++ post ∧ pre.flatten = expected) →
      (serve g fresh (chunks.map chunk)).writes = []) ∧
    ((∃ pre post, chunks = pre ++ post ∧ pre.flatten = expected) →
      (serve g fresh (chunks.map chunk)).writes = [uv_buf_init g.policy g.policy_len]) ∧
    ((∃ pre post, chunks = pre ++ post ∧ pre.flatten = expected) →
      ∃ pre nxt post, chunks = pre ++ nxt :: post ∧ pre.flatten = expected) ∧
    (∀ pre nxt post, chunks = pre ++ nxt :: post → pre.flatten = expected →
      (serve g fresh (pre.dropLast.map chunk)).writes = [] ∧
      (serve g fresh (pre.dropLast.map chunk)).closing = false ∧
      (serve g fresh (pre.map chunk)).writes = [uv_buf_init g.policy g.policy_len] ∧
      (serve g fresh (pre.map chunk)).closing = false ∧
      (serve g fresh ((pre ++ [nxt]).map chunk)).writes
        = [uv_buf_init g.policy g.policy_len] ∧
      (serve g fresh ((pre ++ [nxt]).map chunk)).closing = true) := by
  have h0 : (0 : Nat) < request_len := by decide
  obtain ⟨h1, h2, h3⟩ := serve_overlong g chunks fresh rfl (Nat.zero_le _) hne
    (by simpa [fresh] using hlong)
  refine ⟨h1, fun hn => h3 (fun hb => hn hb.2), fun hb => h2 ⟨h0, hb⟩, ?_, ?_⟩
  · rintro ⟨pre, post, hsplit, hfull⟩
    cases post with
    | nil =>
      rw [List.append_nil] at hsplit
      rw [hsplit, hfull, expected_length] at hlong
      exact absurd hlong (by decide)
    | cons nxt post => exact ⟨pre, nxt, post, hsplit, hfull⟩
  · intro pre nxt post hsplit hfull
    have hmem : ∀ x ∈ pre ++ nxt :: post, x ≠ [] := by rw [← hsplit]; exact hne
    exact serve_request_then_more g pre nxt
      (fun x hx => hmem x (List.mem_append_left _ hx))
      (hmem nxt (List.mem_append_right _ (List.mem_cons_self _ _))) hfull

/-- The request in two chunks followed by a chunk holding `x`: the reply is written by
the second chunk, with the handle open, and the third chunk closes the handle. -/
theorem overlong_stream_closes_witness :
    (∀ x ∈ [[60, 112, 111, 108, 105, 99, 121, 45, 102, 105, 108, 101, 45, 114],
        [101, 113, 117, 101, 115, 116, 47, 62, 0], [120]], x ≠ []) ∧
    request_len < [[60, 112, 111, 108, 105, 99, 121, 45, 102, 105, 108, 101, 45, 114],
        [101, 113, 117, 101, 115, 116, 47, 62, 0], [120]].flatten.length ∧
    (serve ⟨[60, 47, 62], 3⟩ fresh
      ([[60, 112, 111, 108, 105, 99, 121, 45, 102, 105, 108, 101, 45, 114],
        [101, 113, 117, 101, 115, 116, 47, 62, 0], [120]].map chunk)).closing = true ∧
    (serve ⟨[60, 47, 62], 3⟩ fresh
      ([[60, 112, 111, 108, 105, 99, 121, 45, 102, 105, 108, 101, 45, 114],
        [101, 113, 117, 101, 115, 116, 47, 62, 0]].dropLast.map chunk)).writes = [] ∧
    (serve ⟨[60, 47, 62], 3⟩ fresh
      ([[60, 112, 111, 108, 105, 99, 121, 45, 102, 105, 108, 101, 45, 114],
        [101, 113, 117, 101, 115, 116, 47, 62, 0]].map chunk)).writes
      = [uv_buf_init [60, 47, 62] 3] ∧
    (serve ⟨[60, 47, 62], 3⟩ fresh
      ([[60, 112, 111, 108, 105, 99, 121, 45, 102, 105, 108, 101, 45, 114],
        [101, 113, 117, 101, 115, 116, 47, 62, 0]].map chunk)).closing = false :=
  ⟨by decide, by decide,
    (overlong_stream_closes ⟨[60, 47, 62], 3⟩
      [[60, 112, 111, 108, 105, 99, 121, 45, 102, 105, 108, 101, 45, 114],
        [101, 113, 117, 101, 115, 116, 47, 62, 0], [120]] (by decide) (by decide)).1,
    ((overlong_stream_closes ⟨[60, 47, 62], 3⟩
      [[60, 112, 111, 108, 105, 99, 121, 45, 102, 105, 108, 101, 45, 114],
        [101, 113, 117, 101, 115, 116, 47, 62, 0], [120]] (by decide) (by decide)).2.2.2.2
      [[60, 112, 111, 108, 105, 99, 121, 45, 102, 105, 108, 101, 45, 114],
        [101, 113, 117, 101, 115, 116, 47, 62, 0]] [120] [] rfl (by decide)).1,
    ((overlong_stream_closes ⟨[60, 47, 62], 3⟩
      [[60, 112, 111, 108, 105, 99, 121, 45, 102, 105, 108, 101, 45, 114],
        [101, 113, 117, 101, 115, 116, 47, 62, 0], [120]] (by decide) (by decide)).2.2.2.2
      [[60, 112, 111, 108, 105, 99, 121, 45, 102, 105, 108, 101, 45, 114],
        [101, 113, 117, 101, 115, 116, 47, 62, 0]] [120] [] rfl (by decide)).2.2.1,
    ((overlong_stream_closes ⟨[60, 47, 62], 3⟩
      [[60, 112, 111, 108, 105, 99, 121, 45, 102, 105, 108, 101, 45, 114],
        [101, 113, 117, 101, 115, 116, 47, 62, 0], [120]] (by decide) (by decide)).2.2.2.2
      [[60, 112, 111, 108, 105, 99, 121, 45, 102, 105, 108, 101, 45, 114],
        [101, 113, 117, 101, 115, 116, 47, 62, 0]] [120] [] rfl (by decide)).2.2.2.1⟩

/-- C6: the code at the failing input.  For the three-byte policy file `<`, NUL, `>`,
read whole, `init` records `policy_len = 1`, not the file size 3, and the reply written
on a valid request holds the single byte `<`. -/
theorem policy_len_stops_at_nul :
    init (whole_file [60, 0, 62]) = some { policy := [60, 0, 62, 0], policy_len := 1 } ∧
    ([60, 0, 62] : List Nat).length = 3 ∧
    (feed { policy := [60, 0, 62, 0], policy_len := 1 } fresh [chunk expected]).writes
      = [uv_buf_init [60, 0, 62, 0] 1] ∧
    (uv_buf_init [60, 0, 62, 0] 1).bytes = [60] := by
  decide

/-- C7, the claim as stated fails: the text `<policy-file-request/>` has 22 bytes, so
the 23 compared bytes are not that text alone. -/
theorem request_literal_counterexample :
    request_text = "<policy-file-request/>".toList.map Char.toNat ∧
    ¬ (expected = request_text ∧ request_text.length = 23) := by
  decide

/-- C7, amended: the 23 bytes that `request_read` compares against are the 22-byte ASCII
text `<policy-file-request/>` followed by one NUL byte, which is byte 23 of the compared
literal; the array `request` has 24 bytes, and its last byte, the terminator of the
string constant, is a NUL outside the compared literal. -/
theorem request_literal :
    request_text = "<policy-file-request/>".toList.map Char.toNat ∧
    request_text.length = 22 ∧
    request_len = 23 ∧
    expected = request_text ++ [0] ∧
    expected.length = 23 ∧
    request.length = 24 ∧
    request = expected ++ [0] := by
  decide

/-- C8, the claim as stated fails: after the complete request the reply is written, and
`reply_written`, with status 0 or with an error status, leaves the handle open. -/
theorem reply_written_counterexample :
    (feed ⟨[60, 47, 62], 3⟩ fresh [chunk expected]).writes = [uv_buf_init [60, 47, 62] 3] ∧
    (reply_written (feed ⟨[60, 47, 62], 3⟩ fresh [chunk expected]) 0).closing = false ∧
    (reply_written (feed ⟨[60, 47, 62], 3⟩ fresh [chunk expected]) (-32)).closing = false := by
  decide

/-- C8, amended: on a connection whose request is complete (`data = request_len`, the
reply written), `reply_written` with any status only frees the write request, and
warns when the status is non-zero: it does not call `uv_close`, it leaves `data`, the
writes and the read buffers as they were, it lowers the number of live write requests
by one, and it adds the write-error warning exactly when `status ≠ 0`.  The handle is
closed by `request_read` at the next read event with `nread ≠ 0` (end of stream, a read
error or a non-empty chunk). -/
theorem reply_written_keeps_open (g : Globals) (c : Client) (status nread : Int)
    (buf : List Nat) (hdata : c.data = request_len) (hn : nread ≠ 0) :
    (reply_written c status).closing = c.closing ∧
    (reply_written c status).data = c.data ∧
    (reply_written c status).writes = c.writes ∧
    (reply_written c status).live_reqs = c.live_reqs - 1 ∧
    (reply_written c status).bufs_freed = c.bufs_freed ∧
    (reply_written c status).warnings =
      (if status ≠ 0 then c.warnings ++ [Warning.write_error status] else c.warnings) ∧
    (request_read g (reply_written c status) nread buf).closing = true := by
  have h1 : (reply_written c status).closing = c.closing ∧
      (reply_written c status).data = c.data ∧
      (reply_written c status).writes = c.writes ∧
      (reply_written c status).live_reqs = c.live_reqs - 1 ∧
      (reply_written c status).bufs_freed = c.bufs_freed ∧
      (reply_written c status).warnings =
        (if status ≠ 0 then c.warnings ++ [Warning.write_error status] else c.warnings) := by
    unfold reply_written
    by_cases hs : status = 0 <;> simp [hs, warn]
  refine ⟨h1.1, h1.2.1, h1.2.2.1, h1.2.2.2.1, h1.2.2.2.2.1, h1.2.2.2.2.2, ?_⟩
  rcases lt_or_gt_of_ne hn with h | h
  · exact (request_read_neg g _ nread buf h).1
  · refine (request_read_reject g _ nread buf h ?_).1
    intro hacc
    have := hacc.1
    rw [h1.2.1, hdata] at this
    omega

/-- After the reply of C8 a failed write is reported, with one warning, and the peer
disconnects. -/
theorem reply_written_keeps_open_witness :
    (feed ⟨[60, 47, 62], 3⟩ fresh [chunk expected]).data = request_len ∧
    UV_EOF ≠ 0 ∧
    (reply_written (feed ⟨[60, 47, 62], 3⟩ fresh [chunk expected]) (-32)).closing
      = (feed ⟨[60, 47, 62], 3⟩ fresh [chunk expected]).closing ∧
    (reply_written (feed ⟨[60, 47, 62], 3⟩ fresh [chunk expected]) (-32)).warnings
      = (if (-32 : Int) ≠ 0
          then (feed ⟨[60, 47, 62], 3⟩ fresh [chunk expected]).warnings
            ++ [Warning.write_error (-32)]
          else (feed ⟨[60, 47, 62], 3⟩ fresh [chunk expected]).warnings) ∧
    (request_read ⟨[60, 47, 62], 3⟩
      (reply_written (feed ⟨[60, 47, 62], 3⟩ fresh [chunk expected]) (-32))
      UV_EOF []).closing = true :=
  ⟨by decide, by decide,
    (reply_written_keeps_open ⟨[60, 47, 62], 3⟩
      (feed ⟨[60, 47, 62], 3⟩ fresh [chunk expected]) (-32) UV_EOF [] (by decide)
      (by decide)).1,
    (reply_written_keeps_open ⟨[60, 47, 62], 3⟩
      (feed ⟨[60, 47, 62], 3⟩ fresh [chunk expected]) (-32) UV_EOF [] (by decide)
      (by decide)).2.2.2.2.2.1,
    (reply_written_keeps_open ⟨[60, 47, 62], 3⟩
      (feed ⟨[60, 47, 62], 3⟩ fresh [chunk expected]) (-32) UV_EOF [] (by decide)
      (by decide)).2.2.2.2.2.2⟩

/-- C9, the claim as stated fails: once the request is complete and the reply written,
a further one-byte chunk makes `request_read` call `uv_close` on a handle that was
open. -/
theorem further_chunk_counterexample :
    (feed ⟨[60, 47, 62], 3⟩ fresh [chunk expected]).data = request_len ∧
    (feed ⟨[60, 47, 62], 3⟩ fresh [chunk expected]).writes.length = 1 ∧
    (feed ⟨[60, 47, 62], 3⟩ fresh [chunk expected]).closing = false ∧
    (request_read ⟨[60, 47, 62], 3⟩ (feed ⟨[60, 47, 62], 3⟩ fresh [chunk expected])
      1 [120]).closing = true := by
  decide

/-- C9, amended: once `data = request_len`, every further non-empty chunk, whatever its
content, issues no write and leaves the matched count unchanged; its bytes are not
compared with the request (the result is the same for any two buffers, the length test
alone decides); and `request_read` closes the connection with `uv_close`. -/
theorem further_chunk_closes (g : Globals) (c : Client) (nread : Int) (buf other : List Nat)
    (hdata : c.data = request_len) (hpos : 0 < nread) :
    (request_read g c nread buf).writes = c.writes ∧
    (request_read g c nread buf).data = c.data ∧
    (request_read g c nread buf).closing = true ∧
    request_read g c nread buf = request_read g c nread other := by
  have hrej : ∀ b : List Nat, ¬ accepts c.data nread.toNat b := by
    intro b hacc
    have := hacc.1
    rw [hdata] at this
    omega
  obtain ⟨h1, h2, h3⟩ := request_read_reject g c nread buf hpos (hrej buf)
  refine ⟨h3, h2, h1, ?_⟩
  have hneg : ¬ nread < 0 := by omega
  have hlong : c.data + nread.toNat > request_len := by
    rw [hdata]
    omega
  unfold request_read
  simp only [hneg, if_false, gt_iff_lt, hpos, if_true]
  rw [if_pos (Or.inl hlong), if_pos (Or.inl hlong)]

/-- After the complete request, the chunk `x` and the chunk `<` have the same effect. -/
theorem further_chunk_closes_witness :
    (feed ⟨[60, 47, 62], 3⟩ fresh [chunk expected]).data = request_len ∧
    (0 : Int) < 1 ∧
    (request_read ⟨[60, 47, 62], 3⟩ (feed ⟨[60, 47, 62], 3⟩ fresh [chunk expected])
      1 [120]).closing = true :=
  ⟨by decide, by decide,
    (further_chunk_closes ⟨[60, 47, 62], 3⟩ (feed ⟨[60, 47, 62], 3⟩ fresh [chunk expected])
      1 [120] [60] (by decide) (by decide)).2.2.1⟩

end Policyd
